import Mathlib

/-!
Verification of the gotch variable-store and data-iterator subsystem.

The Iter2 definitions are a shallow embedding of nn/data.go: the two tensors
are modelled by their first-dimension sequences of rows, int64 fields by Int,
and the in-place Next method by a state-passing function.

The variable-store definitions (VarStore, Path, GetOrCreate, Save, Load) are
modelled from the specification, since the varstore implementation file is not
part of the provided sources (only its test file is).
-/

set_option maxHeartbeats 1000000

/-- Shallow embedding of the Iter2 struct of nn/data.go.  The tensors xs and
ys are represented by the lists of their first-dimension slices; the int64
fields batchIndex, batchSize and totalSize are represented by Int. -/
structure Iter2 (α β : Type) where
  xs : List α
  ys : List β
  batchIndex : Int
  batchSize : Int
  totalSize : Int
  returnSmallLastBatch : Bool
deriving DecidableEq

/-- Embedding of NewIter2 of nn/data.go: totalSize is the first dimension of
xs; an error is returned when the first dimension of ys differs; otherwise the
iterator starts with batchIndex 0 and returnSmallLastBatch false. -/
def NewIter2 {α β : Type} (xs : List α) (ys : List β) (batchSize : Int) :
    Except String (Iter2 α β) :=
  let totalSize : Int := xs.length
  if (ys.length : Int) ≠ totalSize then
    Except.error "Different dimension for the two inputs"
  else
    Except.ok
      { xs := xs, ys := ys, batchIndex := 0, batchSize := batchSize,
        totalSize := totalSize, returnSmallLastBatch := false }

/-- Embedding of the ReturnSmallLastBatch method of nn/data.go: sets the flag. -/
def ReturnSmallLastBatch {α β : Type} (it : Iter2 α β) : Iter2 α β :=
  { it with returnSmallLastBatch := true }

/-- Embedding of the Next method of nn/data.go.  Returns the yielded batch (if
any) together with the successor iterator state; the Go method mutates its
receiver only when it yields a batch. -/
def Next {α β : Type} (it : Iter2 α β) : Option (List α × List β) × Iter2 α β :=
  let start := it.batchIndex * it.batchSize
  let size := if it.totalSize - start < it.batchSize then it.totalSize - start
              else it.batchSize
  if size ≤ 0 ∨ (it.returnSmallLastBatch = false ∧ size < it.batchSize) then
    (none, it)
  else
    (some ((it.xs.drop start.toNat).take size.toNat,
           (it.ys.drop start.toNat).take size.toNat),
     { it with batchIndex := it.batchIndex + 1 })

/-- Collects the batches produced by repeatedly calling Next, with enough fuel. -/
def runIter {α β : Type} : Iter2 α β → Nat → List (List α × List β)
  | _, 0 => []
  | it, fuel + 1 =>
    match Next it with
    | (none, _) => []
    | (some b, it2) => b :: runIter it2 fuel

/-- C10: NewIter2 returns an error exactly when the first dimension of ys
differs from the first dimension of xs; on success the iterator has
totalSize equal to the first dimension of xs, batchIndex 0 and
returnSmallLastBatch false. -/
theorem NewIter2_spec {α β : Type} (xs : List α) (ys : List β) (bs : Int) :
    (ys.length ≠ xs.length →
      NewIter2 xs ys bs = Except.error "Different dimension for the two inputs") ∧
    (ys.length = xs.length →
      NewIter2 xs ys bs = Except.ok
        { xs := xs, ys := ys, batchIndex := 0, batchSize := bs,
          totalSize := (xs.length : Int), returnSmallLastBatch := false }) := by
  constructor
  · intro h
    simp only [NewIter2]
    rw [if_pos]
    exact fun hc => h (by exact_mod_cast hc)
  · intro h
    simp only [NewIter2]
    rw [if_neg]
    simp [h]

/-- Concrete instantiation of NewIter2_spec: length mismatch yields the error,
matching lengths yield the initial iterator state. -/
theorem NewIter2_spec_witness :
    (NewIter2 [0, 1] [5] (1 : Int) =
      Except.error "Different dimension for the two inputs") ∧
    (NewIter2 [0, 1] [5, 6] (1 : Int) = Except.ok
      { xs := [0, 1], ys := [5, 6], batchIndex := 0, batchSize := 1,
        totalSize := (2 : Int), returnSmallLastBatch := false }) :=
  ⟨(NewIter2_spec [0, 1] [5] 1).1 (by decide),
   (NewIter2_spec [0, 1] [5, 6] 1).2 (by decide)⟩


/-- An Iter2 state over xs, ys with batch size bs, current batch index k and
the given small-last-batch flag, as produced by NewIter2 after k calls of
Next that yielded a batch. -/
def iterState {α β : Type} (xs : List α) (ys : List β) (bs k : Nat)
    (rslb : Bool) : Iter2 α β :=
  { xs := xs, ys := ys, batchIndex := (k : Int), batchSize := (bs : Int),
    totalSize := (xs.length : Int), returnSmallLastBatch := rslb }

/-- Unfolding of Next at an iterState, by definitional computation. -/
theorem Next_iterState {α β : Type} (xs : List α) (ys : List β) (bs k : Nat)
    (rslb : Bool) :
    Next (iterState xs ys bs k rslb) =
      (if (if (xs.length : Int) - (k : Int) * (bs : Int) < (bs : Int)
           then (xs.length : Int) - (k : Int) * (bs : Int) else (bs : Int)) ≤ 0 ∨
          (rslb = false ∧
            (if (xs.length : Int) - (k : Int) * (bs : Int) < (bs : Int)
             then (xs.length : Int) - (k : Int) * (bs : Int) else (bs : Int)) < (bs : Int)) then
        (none, iterState xs ys bs k rslb)
      else
        (some ((xs.drop ((k : Int) * (bs : Int)).toNat).take
                 (if (xs.length : Int) - (k : Int) * (bs : Int) < (bs : Int)
                  then (xs.length : Int) - (k : Int) * (bs : Int) else (bs : Int)).toNat,
               (ys.drop ((k : Int) * (bs : Int)).toNat).take
                 (if (xs.length : Int) - (k : Int) * (bs : Int) < (bs : Int)
                  then (xs.length : Int) - (k : Int) * (bs : Int) else (bs : Int)).toNat),
         { iterState xs ys bs k rslb with batchIndex := (k : Int) + 1 })) := rfl

/-- Bumping the batch index of an iterState by one gives the next iterState. -/
theorem iterState_succ {α β : Type} (xs : List α) (ys : List β) (bs k : Nat)
    (rslb : Bool) :
    { iterState xs ys bs k rslb with batchIndex := (k : Int) + 1 } =
      iterState xs ys bs (k + 1) rslb := by
  simp [iterState]

/-- When a full batch remains, Next yields the bs consecutive rows starting at
index k * bs and advances the batch index. -/
theorem Next_full {α β : Type} {xs : List α} {ys : List β} {bs k : Nat}
    {rslb : Bool} (hbs : 0 < bs) (hfull : (k + 1) * bs ≤ xs.length) :
    Next (iterState xs ys bs k rslb) =
      (some ((xs.drop (k * bs)).take bs, (ys.drop (k * bs)).take bs),
       iterState xs ys bs (k + 1) rslb) := by
  have hfull2 : k * bs + bs ≤ xs.length := by rwa [Nat.succ_mul] at hfull
  have hcast : ((k * bs : Nat) : Int) = (k : Int) * (bs : Int) := Nat.cast_mul k bs
  have h1 : ¬((xs.length : Int) - (k : Int) * (bs : Int) < (bs : Int)) := by omega
  have h2 : ¬((bs : Int) ≤ 0 ∨ (rslb = false ∧ (bs : Int) < (bs : Int))) := by
    rintro (h | ⟨-, h⟩) <;> omega
  have h3 : ((k : Int) * (bs : Int)).toNat = k * bs := by
    rw [← hcast, Int.toNat_natCast]
  have h4 : ((bs : Int)).toNat = bs := Int.toNat_natCast bs
  rw [Next_iterState, if_neg h1, if_neg h2, h3, h4, iterState_succ]

/-- With the small-last-batch flag off, Next stops as soon as fewer than bs
rows remain. -/
theorem Next_stop {α β : Type} {xs : List α} {ys : List β} {bs k : Nat}
    (hstop : xs.length < (k + 1) * bs) :
    Next (iterState xs ys bs k false) = (none, iterState xs ys bs k false) := by
  have hstop2 : xs.length < k * bs + bs := by rwa [Nat.succ_mul] at hstop
  have hcast : ((k * bs : Nat) : Int) = (k : Int) * (bs : Int) := Nat.cast_mul k bs
  have h1 : (xs.length : Int) - (k : Int) * (bs : Int) < (bs : Int) := by omega
  rw [Next_iterState, if_pos h1, if_pos (Or.inr ⟨rfl, h1⟩)]

/-- With the small-last-batch flag on and a nonempty final remainder, Next
yields the whole remainder and advances the batch index. -/
theorem Next_tail {α β : Type} {xs : List α} {ys : List β} {bs k : Nat}
    (hlen : ys.length = xs.length) (hlo : k * bs < xs.length)
    (hhi : xs.length < (k + 1) * bs) :
    Next (iterState xs ys bs k true) =
      (some (xs.drop (k * bs), ys.drop (k * bs)),
       iterState xs ys bs (k + 1) true) := by
  have hhi2 : xs.length < k * bs + bs := by rwa [Nat.succ_mul] at hhi
  have hcast : ((k * bs : Nat) : Int) = (k : Int) * (bs : Int) := Nat.cast_mul k bs
  have h1 : (xs.length : Int) - (k : Int) * (bs : Int) < (bs : Int) := by omega
  have h2 : ¬((xs.length : Int) - (k : Int) * (bs : Int) ≤ 0 ∨
      (true = false ∧ (xs.length : Int) - (k : Int) * (bs : Int) < (bs : Int))) := by
    rintro (h | ⟨h, -⟩)
    · omega
    · exact Bool.noConfusion h
  have h3 : ((k : Int) * (bs : Int)).toNat = k * bs := by
    rw [← hcast, Int.toNat_natCast]
  have h4 : ((xs.length : Int) - (k : Int) * (bs : Int)).toNat = xs.length - k * bs := by
    omega
  have h5 : (xs.drop (k * bs)).take (xs.length - k * bs) = xs.drop (k * bs) :=
    List.take_of_length_le (by rw [List.length_drop])
  have h6 : (ys.drop (k * bs)).take (xs.length - k * bs) = ys.drop (k * bs) :=
    List.take_of_length_le (by rw [List.length_drop, hlen])
  rw [Next_iterState, if_pos h1, if_neg h2, h3, h4, h5, h6, iterState_succ]

/-- Once the batch index has passed all rows, Next yields nothing. -/
theorem Next_dead {α β : Type} {xs : List α} {ys : List β} {bs k : Nat}
    {rslb : Bool} (hdead : xs.length ≤ k * bs) :
    Next (iterState xs ys bs k rslb) = (none, iterState xs ys bs k rslb) := by
  have hcast : ((k * bs : Nat) : Int) = (k : Int) * (bs : Int) := Nat.cast_mul k bs
  have h0 : (xs.length : Int) - (k : Int) * (bs : Int) ≤ 0 := by omega
  rw [Next_iterState]
  by_cases h1 : (xs.length : Int) - (k : Int) * (bs : Int) < (bs : Int)
  · rw [if_pos h1, if_pos (Or.inl h0)]
  · rw [if_neg h1, if_pos (Or.inl (by omega : (bs : Int) ≤ 0))]

/-- A dead iterator yields no batches at all, with any amount of fuel. -/
theorem runIter_dead {α β : Type} {xs : List α} {ys : List β} {bs k : Nat}
    {rslb : Bool} (hdead : xs.length ≤ k * bs) :
    ∀ fuel, runIter (iterState xs ys bs k rslb) fuel = [] := by
  intro fuel
  cases fuel with
  | zero => rfl
  | succ fuel => simp only [runIter, Next_dead hdead]

/-- With the small-last-batch flag off, the run from batch index k consists of
exactly the remaining full batches, in index order. -/
theorem runIter_noSmall {α β : Type} (xs : List α) (ys : List β) (bs : Nat)
    (hbs : 0 < bs) :
    ∀ fuel k, xs.length / bs - k < fuel →
      runIter (iterState xs ys bs k false) fuel =
        (List.range' k (xs.length / bs - k)).map
          (fun j => ((xs.drop (j * bs)).take bs, (ys.drop (j * bs)).take bs)) := by
  intro fuel
  induction fuel with
  | zero => omega
  | succ fuel ih =>
    intro k hk
    by_cases hfull : (k + 1) * bs ≤ xs.length
    · have hkdiv : k + 1 ≤ xs.length / bs := (Nat.le_div_iff_mul_le hbs).mpr hfull
      simp only [runIter, Next_full hbs hfull]
      rw [ih (k + 1) (by omega)]
      have hdelta : xs.length / bs - k = (xs.length / bs - (k + 1)) + 1 := by omega
      rw [hdelta, List.range'_succ, List.map_cons]
    · have hkdiv : xs.length / bs ≤ k := by
        have := (Nat.div_lt_iff_lt_mul hbs).mpr (by omega : xs.length < (k + 1) * bs)
        omega
      have hdelta : xs.length / bs - k = 0 := by omega
      simp only [runIter, Next_stop (by omega : xs.length < (k + 1) * bs), hdelta,
        List.range'_zero, List.map_nil]

/-- With the small-last-batch flag on, the run from batch index k consists of
the remaining full batches followed by the nonempty remainder, if any. -/
theorem runIter_small {α β : Type} (xs : List α) (ys : List β) (bs : Nat)
    (hbs : 0 < bs) (hlen : ys.length = xs.length) :
    ∀ fuel k, k ≤ xs.length / bs → xs.length / bs + 1 - k < fuel →
      runIter (iterState xs ys bs k true) fuel =
        (List.range' k (xs.length / bs - k)).map
          (fun j => ((xs.drop (j * bs)).take bs, (ys.drop (j * bs)).take bs)) ++
        (if xs.length % bs = 0 then []
         else [(xs.drop ((xs.length / bs) * bs), ys.drop ((xs.length / bs) * bs))]) := by
  intro fuel
  induction fuel with
  | zero => omega
  | succ fuel ih =>
    intro k hkle hk
    by_cases hfull : (k + 1) * bs ≤ xs.length
    · have hkdiv : k + 1 ≤ xs.length / bs := (Nat.le_div_iff_mul_le hbs).mpr hfull
      simp only [runIter, Next_full hbs hfull]
      rw [ih (k + 1) hkdiv (by omega)]
      have hdelta : xs.length / bs - k = (xs.length / bs - (k + 1)) + 1 := by omega
      rw [hdelta, List.range'_succ, List.map_cons, List.cons_append]
    · have hkdiv : xs.length / bs ≤ k := by
        have := (Nat.div_lt_iff_lt_mul hbs).mpr (by omega : xs.length < (k + 1) * bs)
        omega
      have hkeq : k = xs.length / bs := by omega
      have hmod : xs.length / bs * bs + xs.length % bs = xs.length := by
        rw [mul_comm]
        exact Nat.div_add_mod _ _
      have e2 : (k + 1) * bs = k * bs + bs := Nat.succ_mul k bs
      have e3 : k * bs = xs.length / bs * bs := by rw [hkeq]
      have hdelta : xs.length / bs - k = 0 := by omega
      by_cases hrem : xs.length % bs = 0
      · have hdead : xs.length ≤ k * bs := by omega
        simp only [runIter_dead hdead, hdelta, hrem, List.range'_zero, List.map_nil,
          List.nil_append, if_true]
      · have hlo : k * bs < xs.length := by omega
        have hhi : xs.length < (k + 1) * bs := by omega
        simp only [runIter, Next_tail hlen hlo hhi]
        have hdead2 : xs.length ≤ (k + 1) * bs := by omega
        rw [runIter_dead hdead2 fuel]
        simp only [hdelta, List.range'_zero, List.map_nil, List.nil_append, hrem,
          if_false, hkeq, Nat.sub_self]

/-- C9: for an iterator built by NewIter2 over n rows with positive batch size
bs: with returnSmallLastBatch false, repeated Next calls yield exactly n / bs
batches, the j-th covering the bs consecutive rows starting at index j * bs,
and the trailing n mod bs rows are never returned; with returnSmallLastBatch
true and n mod bs nonzero, one additional final batch holding the remaining
n mod bs rows is yielded before Next stops. -/
theorem Iter2_run_spec {α β : Type} (xs : List α) (ys : List β) (bs : Nat)
    (hbs : 0 < bs) (hlen : ys.length = xs.length) :
    ∃ it, NewIter2 xs ys (bs : Int) = Except.ok it ∧
      (∀ fuel, xs.length / bs < fuel →
        runIter it fuel =
          (List.range' 0 (xs.length / bs)).map
            (fun j => ((xs.drop (j * bs)).take bs, (ys.drop (j * bs)).take bs))) ∧
      (∀ fuel, xs.length / bs + 1 < fuel →
        runIter (ReturnSmallLastBatch it) fuel =
          (List.range' 0 (xs.length / bs)).map
            (fun j => ((xs.drop (j * bs)).take bs, (ys.drop (j * bs)).take bs)) ++
          (if xs.length % bs = 0 then []
           else [(xs.drop ((xs.length / bs) * bs), ys.drop ((xs.length / bs) * bs))])) ∧
      (∀ j, j < xs.length / bs → ((xs.drop (j * bs)).take bs).length = bs) ∧
      (xs.drop ((xs.length / bs) * bs)).length = xs.length % bs := by
  refine ⟨iterState xs ys bs 0 false, ?_, ?_, ?_, ?_, ?_⟩
  · rw [(NewIter2_spec xs ys (bs : Int)).2 hlen]
    rfl
  · intro fuel hfuel
    have := runIter_noSmall xs ys bs hbs fuel 0 (by simpa using hfuel)
    simpa using this
  · intro fuel hfuel
    have hsame : ReturnSmallLastBatch (iterState xs ys bs 0 false) =
        iterState xs ys bs 0 true := rfl
    rw [hsame]
    have := runIter_small xs ys bs hbs hlen fuel 0 (Nat.zero_le _) (by simpa using hfuel)
    simpa using this
  · intro j hj
    have hfull : (j + 1) * bs ≤ xs.length := (Nat.le_div_iff_mul_le hbs).mp (by omega)
    have e2 : (j + 1) * bs = j * bs + bs := Nat.succ_mul j bs
    rw [List.length_take, List.length_drop]
    omega
  · have hmod : xs.length / bs * bs + xs.length % bs = xs.length := by
      rw [mul_comm]
      exact Nat.div_add_mod _ _
    rw [List.length_drop]
    omega

/-- Concrete instantiation of Iter2_run_spec with five rows and batch size
two: two full batches without the flag, plus the one-row remainder with it. -/
theorem Iter2_run_spec_witness :
    0 < 2 ∧ ([5, 6, 7, 8, 9] : List Nat).length = ([0, 1, 2, 3, 4] : List Nat).length ∧
    (∃ it, NewIter2 ([0, 1, 2, 3, 4] : List Nat) ([5, 6, 7, 8, 9] : List Nat) ((2 : Nat) : Int) = Except.ok it ∧
      (∀ fuel, ([0, 1, 2, 3, 4] : List Nat).length / 2 < fuel →
        runIter it fuel =
          (List.range' 0 (([0, 1, 2, 3, 4] : List Nat).length / 2)).map
            (fun j => ((([0, 1, 2, 3, 4] : List Nat).drop (j * 2)).take 2,
                       (([5, 6, 7, 8, 9] : List Nat).drop (j * 2)).take 2))) ∧
      (∀ fuel, ([0, 1, 2, 3, 4] : List Nat).length / 2 + 1 < fuel →
        runIter (ReturnSmallLastBatch it) fuel =
          (List.range' 0 (([0, 1, 2, 3, 4] : List Nat).length / 2)).map
            (fun j => ((([0, 1, 2, 3, 4] : List Nat).drop (j * 2)).take 2,
                       (([5, 6, 7, 8, 9] : List Nat).drop (j * 2)).take 2)) ++
          (if ([0, 1, 2, 3, 4] : List Nat).length % 2 = 0 then []
           else [(([0, 1, 2, 3, 4] : List Nat).drop ((([0, 1, 2, 3, 4] : List Nat).length / 2) * 2),
                  ([5, 6, 7, 8, 9] : List Nat).drop ((([0, 1, 2, 3, 4] : List Nat).length / 2) * 2))])) ∧
      (∀ j, j < ([0, 1, 2, 3, 4] : List Nat).length / 2 →
        ((([0, 1, 2, 3, 4] : List Nat).drop (j * 2)).take 2).length = 2) ∧
      (([0, 1, 2, 3, 4] : List Nat).drop ((([0, 1, 2, 3, 4] : List Nat).length / 2) * 2)).length =
        ([0, 1, 2, 3, 4] : List Nat).length % 2) :=
  ⟨by decide, by decide,
   Iter2_run_spec [0, 1, 2, 3, 4] [5, 6, 7, 8, 9] 2 (by decide) (by decide)⟩

/-- Modelled from the spec: the error taxonomy of the variable store
(varstore implementation absent from the provided sources). -/
inductive VsError where
  | validation
  | shapeMismatch
  | serialization
  | ioError
deriving DecidableEq

/-- Modelled from the spec: an owned tensor of the registry.  The storage
identity is represented by an id allocated at creation time; dtype is an
opaque tag; data holds the raw host bytes of the contents. -/
structure Tensor where
  id : Nat
  dtype : Nat
  shape : List Nat
  data : List Nat
deriving DecidableEq

/-- Modelled from the spec: the allocation request produced by a factory
(dtype, requested shape and initial contents). -/
structure TensorInit where
  dtype : Nat
  shape : List Nat
  data : List Nat
deriving DecidableEq

/-- Modelled from the spec: the variable store (absent from the provided
sources): a device identifier, the ordered name-to-tensor registry in
insertion order, and a counter allocating fresh storage identities.  The
store-wide lock is not modelled; operations are the serialized critical
sections. -/
structure VarStore where
  device : Nat
  entries : List (String × Tensor)
  nextId : Nat
deriving DecidableEq

/-- Looks a name up in the registry, returning the first entry's tensor. -/
def findVar (es : List (String × Tensor)) (n : String) : Option Tensor :=
  (es.find? fun e => e.1 == n).map fun e => e.2

/-- Modelled from the spec: NewVarStore returns an empty registry bound to
the device. -/
def NewVarStore (device : Nat) : VarStore :=
  { device := device, entries := [], nextId := 0 }

/-- Modelled from the spec: GetOrCreate (absent from the provided sources).
If the full name exists the existing tensor is returned unchanged and the
factory is ignored; otherwise the factory is invoked on the device, the
requested shape is validated (positive dimensions) and the new tensor is
inserted at the end of the ordered registry. -/
def GetOrCreate (vs : VarStore) (fullName : String) (factory : Nat → TensorInit) :
    Except VsError (VarStore × Tensor) :=
  match findVar vs.entries fullName with
  | some t => Except.ok (vs, t)
  | none =>
    let ti := factory vs.device
    if ti.shape.all (fun d => 0 < d) then
      let t : Tensor :=
        { id := vs.nextId, dtype := ti.dtype, shape := ti.shape, data := ti.data }
      Except.ok
        ({ vs with entries := vs.entries ++ [(fullName, t)], nextId := vs.nextId + 1 }, t)
    else
      Except.error VsError.validation

/-- Modelled from the spec: an archive record (name, dtype, shape, raw bytes). -/
structure Record where
  name : String
  dtype : Nat
  shape : List Nat
  payload : List Nat
deriving DecidableEq

/-- Modelled from the spec: the ToHostBytes extraction of the engine
interface, which for the host-resident model always succeeds and returns the
contents. -/
def toHostBytes (t : Tensor) : Option (List Nat) := some t.data

/-- Builds the archive record of one registry entry, failing with
SerializationError when the byte extraction fails. -/
def extractRecord (ext : Tensor → Option (List Nat)) (e : String × Tensor) :
    Except VsError Record :=
  match ext e.2 with
  | some bs => Except.ok { name := e.1, dtype := e.2.dtype, shape := e.2.shape, payload := bs }
  | none => Except.error VsError.serialization

/-- Modelled from the spec: Save serializes every registry entry in insertion
order, stopping at the first extraction failure. -/
def serializeEntries (ext : Tensor → Option (List Nat)) :
    List (String × Tensor) → Except VsError (List Record)
  | [] => Except.ok []
  | e :: rest =>
    match extractRecord ext e with
    | Except.error er => Except.error er
    | Except.ok r =>
      match serializeEntries ext rest with
      | Except.error er => Except.error er
      | Except.ok rs => Except.ok (r :: rs)

/-- A file system mapping a path to the archive it holds, if any. -/
def FS : Type := String → Option (List Record)

/-- Writing an archive at a path. -/
def fsWrite (fs : FS) (p : String) (a : List Record) : FS :=
  fun q => if q = p then some a else fs q

/-- Atomically renaming the file at src onto dst. -/
def fsRename (fs : FS) (src dst : String) : FS :=
  fun q => if q = dst then fs src else if q = src then none else fs q

/-- Modelled from the spec: the sequence of observable file-system states
during Save.  On serialization failure nothing is written; on success the
archive is first written whole to the temporary path and then renamed onto
the target. -/
def saveStates (ext : Tensor → Option (List Nat)) (vs : VarStore) (fs : FS)
    (tmp target : String) : List FS :=
  match serializeEntries ext vs.entries with
  | Except.error _ => [fs]
  | Except.ok arch =>
    [fs, fsWrite fs tmp arch, fsRename (fsWrite fs tmp arch) tmp target]

/-- Modelled from the spec: Save (absent from the provided sources): extract
all records under the lock, write them to a temporary file and rename it
into place; any failure leaves the file system unchanged. -/
def Save (ext : Tensor → Option (List Nat)) (vs : VarStore) (fs : FS)
    (tmp target : String) : Except VsError FS :=
  match serializeEntries ext vs.entries with
  | Except.error er => Except.error er
  | Except.ok arch => Except.ok (fsRename (fsWrite fs tmp arch) tmp target)

/-- One archive record passes validation when its name is absent from the
registry or the existing entry has exactly the archived shape. -/
def recordOk (es : List (String × Tensor)) (r : Record) : Bool :=
  match findVar es r.name with
  | none => true
  | some t => t.shape == r.shape

/-- Modelled from the spec: Load validates every record against the current
registry before mutating anything. -/
def validateArchive (es : List (String × Tensor)) (arch : List Record) : Bool :=
  arch.all (recordOk es)

/-- Applies one archive record: the matching entry's contents are overwritten
in place (identity, dtype and shape preserved); a record with no matching
entry changes nothing. -/
def applyRecord (es : List (String × Tensor)) (r : Record) : List (String × Tensor) :=
  es.map fun e => if e.1 == r.name then (e.1, { e.2 with data := r.payload }) else e

/-- Modelled from the spec: Load (absent from the provided sources): validate
all records first; on any shape conflict fail with ShapeMismatchError before
any mutation; otherwise overwrite each matching entry's contents in place,
silently skipping records without a matching entry. -/
def Load (vs : VarStore) (arch : List Record) : Except VsError VarStore :=
  if validateArchive vs.entries arch then
    Except.ok { vs with entries := arch.foldl applyRecord vs.entries }
  else
    Except.error VsError.shapeMismatch

/-- The payload of the last archive record carrying the given name, if any. -/
def lastPayload? : List Record → String → Option (List Nat)
  | [], _ => none
  | r :: rest, n =>
    match lastPayload? rest n with
    | some d => some d
    | none => if r.name == n then some r.payload else none

/-- Overwrites the contents of an entry with the given bytes, if present. -/
def overwriteData (e : String × Tensor) : Option (List Nat) → String × Tensor
  | none => e
  | some d => (e.1, { e.2 with data := d })

/-- Overwriting contents preserves the entry's name. -/
theorem overwriteData_fst (e : String × Tensor) (o : Option (List Nat)) :
    (overwriteData e o).1 = e.1 := by
  cases o <;> rfl

/-- Folding all archive records over the registry overwrites each entry's
contents with the payload of the last record carrying its name. -/
theorem foldl_applyRecord (arch : List Record) :
    ∀ es : List (String × Tensor),
      arch.foldl applyRecord es =
        es.map fun e => overwriteData e (lastPayload? arch e.1) := by
  induction arch with
  | nil =>
    intro es
    simp [lastPayload?, overwriteData]
  | cons r rest ih =>
    intro es
    rw [List.foldl_cons, ih, applyRecord, List.map_map]
    refine List.map_congr_left fun e he => ?_
    by_cases hname : e.1 = r.name
    · have hbeq : (e.1 == r.name) = true := beq_iff_eq.mpr hname
      have hbeq2 : (r.name == e.1) = true := beq_iff_eq.mpr hname.symm
      cases hpl : lastPayload? rest e.1 with
      | none => simp [Function.comp, hbeq, hbeq2, lastPayload?, hpl, overwriteData]
      | some d => simp [Function.comp, hbeq, hbeq2, lastPayload?, hpl, overwriteData]
    · have hbeq : (e.1 == r.name) = false := beq_eq_false_iff_ne.mpr hname
      have hbeq2 : (r.name == e.1) = false := beq_eq_false_iff_ne.mpr (Ne.symm hname)
      cases hpl : lastPayload? rest e.1 with
      | none => simp [Function.comp, hbeq, hbeq2, lastPayload?, hpl, overwriteData]
      | some d => simp [Function.comp, hbeq, hbeq2, lastPayload?, hpl, overwriteData]

/-- Lookup in the registry produced by Load: the found tensor is the original
one with its contents overwritten by the last matching record, if any. -/
theorem findVar_foldl_applyRecord (arch : List Record)
    (es : List (String × Tensor)) (n : String) :
    findVar (arch.foldl applyRecord es) n =
      (findVar es n).map fun t =>
        match lastPayload? arch n with
        | none => t
        | some d => { t with data := d } := by
  rw [foldl_applyRecord]
  induction es with
  | nil => simp [findVar]
  | cons e rest ih =>
    by_cases hname : e.1 = n
    · subst hname
      have hov : ((overwriteData e (lastPayload? arch e.1)).1 == e.1) = true := by
        rw [overwriteData_fst]
        exact beq_self_eq_true _
      simp only [findVar, List.map_cons, List.find?, beq_self_eq_true, hov]
      cases hpl : lastPayload? arch e.1 <;> simp [overwriteData, hpl]
    · have hbeq : (e.1 == n) = false := beq_eq_false_iff_ne.mpr hname
      have hov : ((overwriteData e (lastPayload? arch e.1)).1 == n) = false := by
        rw [overwriteData_fst]
        exact hbeq
      simp only [findVar, List.map_cons, List.find?, hbeq, hov]
      exact ih

/-- The record of a registry entry under the always-successful extraction. -/
def recordOfEntry (e : String × Tensor) : Record :=
  { name := e.1, dtype := e.2.dtype, shape := e.2.shape, payload := e.2.data }

/-- With the host-resident extraction, serialization succeeds and emits one
record per registry entry, in registry order. -/
theorem serializeEntries_toHostBytes (es : List (String × Tensor)) :
    serializeEntries toHostBytes es = Except.ok (es.map recordOfEntry) := by
  induction es with
  | nil => rfl
  | cons e rest ih => simp [serializeEntries, extractRecord, toHostBytes, recordOfEntry, ih]

/-- A name is absent from the registry exactly when lookup fails. -/
theorem findVar_eq_none_iff (es : List (String × Tensor)) (n : String) :
    findVar es n = none ↔ n ∉ es.map Prod.fst := by
  simp only [findVar, Option.map_eq_none', List.find?_eq_none, List.mem_map]
  constructor
  · rintro h ⟨e, he, rfl⟩
    exact h e he (by simp)
  · intro h e he hbeq
    exact h ⟨e, he, (beq_iff_eq.mp hbeq)⟩

/-- C1: when the full name is already present in the registry, GetOrCreate
returns the existing tensor unchanged, keeping the shape of the first
successful creation; the supplied factory with its requested shape is
ignored and the registry is not modified. -/
theorem GetOrCreate_existing (vs : VarStore) (n : String) (t : Tensor)
    (factory : Nat → TensorInit) (h : findVar vs.entries n = some t) :
    GetOrCreate vs n factory = Except.ok (vs, t) := by
  simp [GetOrCreate, h]

/-- Concrete instantiation of GetOrCreate_existing, mirroring
TestVarStoreEntry: the entry was created with shape 3 x 1 x 4, a repeat
request for shape 1 x 5 x 9 returns the original tensor and leaves the
store unchanged. -/
theorem GetOrCreate_existing_witness :
    findVar [("key", ({ id := 0, dtype := 0, shape := [3, 1, 4], data := [7] } : Tensor))]
        "key" = some { id := 0, dtype := 0, shape := [3, 1, 4], data := [7] } ∧
    GetOrCreate
        { device := 0,
          entries := [("key", { id := 0, dtype := 0, shape := [3, 1, 4], data := [7] })],
          nextId := 1 }
        "key" (fun _ => { dtype := 0, shape := [1, 5, 9], data := [] }) =
      Except.ok
        ({ device := 0,
           entries := [("key", { id := 0, dtype := 0, shape := [3, 1, 4], data := [7] })],
           nextId := 1 },
         { id := 0, dtype := 0, shape := [3, 1, 4], data := [7] }) :=
  ⟨rfl, GetOrCreate_existing _ "key" _ _ rfl⟩

/-- C3: when some archive record matches an existing entry by name but not by
shape, Load fails with ShapeMismatchError; since validation precedes every
mutation, the error result carries no store and the caller's registry is
untouched (all-or-nothing). -/
theorem Load_shapeMismatch (vs : VarStore) (arch : List Record)
    (h : ∃ r ∈ arch, ∃ t, findVar vs.entries r.name = some t ∧ t.shape ≠ r.shape) :
    Load vs arch = Except.error VsError.shapeMismatch := by
  obtain ⟨r, hr, t, hfind, hne⟩ := h
  have hro : ¬ recordOk vs.entries r = true := by
    simp [recordOk, hfind]
    exact hne
  have hv : validateArchive vs.entries arch = false := by
    rw [validateArchive, List.all_eq_false]
    exact ⟨r, hr, hro⟩
  simp [Load, hv]

/-- Concrete instantiation of Load_shapeMismatch: the archive offers shape
2 for an entry of shape 3; Load reports the shape mismatch. -/
theorem Load_shapeMismatch_witness :
    Load
      { device := 0,
        entries := [("a", { id := 0, dtype := 0, shape := [3], data := [1, 1, 1] })],
        nextId := 1 }
      [{ name := "a", dtype := 0, shape := [2], payload := [9, 9] }] =
      Except.error VsError.shapeMismatch :=
  Load_shapeMismatch _ _
    ⟨{ name := "a", dtype := 0, shape := [2], payload := [9, 9] }, by decide,
     { id := 0, dtype := 0, shape := [3], data := [1, 1, 1] }, rfl, by decide⟩

/-- C7: when every record passes validation, Load succeeds; records whose
name has no matching entry are silently skipped (the archive may be a strict
superset of the live registry); only matching entries have their contents
overwritten, and every entry keeps its name, storage identity, dtype and
shape. -/
theorem Load_superset_spec (vs : VarStore) (arch : List Record)
    (hv : validateArchive vs.entries arch = true) :
    ∃ vs2, Load vs arch = Except.ok vs2 ∧
      vs2.device = vs.device ∧
      vs2.nextId = vs.nextId ∧
      vs2.entries.map (fun e => (e.1, e.2.id, e.2.dtype, e.2.shape)) =
        vs.entries.map (fun e => (e.1, e.2.id, e.2.dtype, e.2.shape)) ∧
      (∀ n, findVar vs2.entries n =
        (findVar vs.entries n).map fun t =>
          match lastPayload? arch n with
          | none => t
          | some d => { t with data := d }) ∧
      (∀ r ∈ arch, findVar vs.entries r.name = none →
        findVar vs2.entries r.name = none) := by
  refine ⟨{ vs with entries := arch.foldl applyRecord vs.entries },
    by simp [Load, hv], rfl, rfl, ?_, ?_, ?_⟩
  · rw [foldl_applyRecord, List.map_map]
    refine List.map_congr_left fun e he => ?_
    cases hpl : lastPayload? arch e.1 <;> simp [Function.comp, overwriteData, hpl]
  · intro n
    exact findVar_foldl_applyRecord arch vs.entries n
  · intro r hr hnone
    rw [findVar_foldl_applyRecord, hnone]
    rfl

/-- Concrete instantiation of Load_superset_spec: an archive holding one
matching record and one record with an unknown name loads successfully,
overwriting the matching entry only. -/
theorem Load_superset_spec_witness :
    validateArchive
        [("a", ({ id := 0, dtype := 0, shape := [3], data := [1, 1, 1] } : Tensor))]
        [{ name := "a", dtype := 0, shape := [3], payload := [9, 9, 9] },
         { name := "zz", dtype := 0, shape := [2], payload := [5, 5] }] = true ∧
    (∃ vs2,
      Load
        { device := 0,
          entries := [("a", { id := 0, dtype := 0, shape := [3], data := [1, 1, 1] })],
          nextId := 1 }
        [{ name := "a", dtype := 0, shape := [3], payload := [9, 9, 9] },
         { name := "zz", dtype := 0, shape := [2], payload := [5, 5] }] = Except.ok vs2 ∧
      vs2.device =
        ({ device := 0,
           entries := [("a", { id := 0, dtype := 0, shape := [3], data := [1, 1, 1] })],
           nextId := 1 } : VarStore).device ∧
      vs2.nextId =
        ({ device := 0,
           entries := [("a", { id := 0, dtype := 0, shape := [3], data := [1, 1, 1] })],
           nextId := 1 } : VarStore).nextId ∧
      vs2.entries.map (fun e => (e.1, e.2.id, e.2.dtype, e.2.shape)) =
        ({ device := 0,
           entries := [("a", { id := 0, dtype := 0, shape := [3], data := [1, 1, 1] })],
           nextId := 1 } : VarStore).entries.map (fun e => (e.1, e.2.id, e.2.dtype, e.2.shape)) ∧
      (∀ n, findVar vs2.entries n =
        (findVar
          ({ device := 0,
             entries := [("a", { id := 0, dtype := 0, shape := [3], data := [1, 1, 1] })],
             nextId := 1 } : VarStore).entries n).map fun t =>
          match lastPayload?
            [{ name := "a", dtype := 0, shape := [3], payload := [9, 9, 9] },
             { name := "zz", dtype := 0, shape := [2], payload := [5, 5] }] n with
          | none => t
          | some d => { t with data := d }) ∧
      (∀ r ∈ [({ name := "a", dtype := 0, shape := [3], payload := [9, 9, 9] } : Record),
              { name := "zz", dtype := 0, shape := [2], payload := [5, 5] }],
        findVar
          ({ device := 0,
             entries := [("a", { id := 0, dtype := 0, shape := [3], data := [1, 1, 1] })],
             nextId := 1 } : VarStore).entries r.name = none →
        findVar vs2.entries r.name = none)) :=
  ⟨by decide, Load_superset_spec _ _ (by decide)⟩

/-- Applying the records of an archive twice overwrites with the same
payloads and therefore equals applying them once. -/
theorem foldl_applyRecord_idem (arch : List Record) (es : List (String × Tensor)) :
    arch.foldl applyRecord (arch.foldl applyRecord es) = arch.foldl applyRecord es := by
  have h1 := foldl_applyRecord arch es
  have h2 := foldl_applyRecord arch (arch.foldl applyRecord es)
  rw [h2, h1, List.map_map]
  refine List.map_congr_left fun e he => ?_
  cases hpl : lastPayload? arch e.1 with
  | none => simp [Function.comp, overwriteData, hpl]
  | some d => simp [Function.comp, overwriteData, hpl]

/-- C8: when every record passes validation against the store, loading the
same archive twice produces exactly the state produced by loading it once. -/
theorem Load_idempotent (vs : VarStore) (arch : List Record)
    (hv : validateArchive vs.entries arch = true) :
    ∃ vs2, Load vs arch = Except.ok vs2 ∧ Load vs2 arch = Except.ok vs2 := by
  refine ⟨{ vs with entries := arch.foldl applyRecord vs.entries },
    by simp [Load, hv], ?_⟩
  have hv2 : validateArchive (arch.foldl applyRecord vs.entries) arch = true := by
    rw [validateArchive, List.all_eq_true]
    intro r hr
    have hold : recordOk vs.entries r = true := (List.all_eq_true.mp hv) r hr
    cases hf : findVar vs.entries r.name with
    | none =>
      have hnew : findVar (arch.foldl applyRecord vs.entries) r.name = none := by
        rw [findVar_foldl_applyRecord, hf]
        rfl
      simp [recordOk, hnew]
    | some t =>
      have hnew : findVar (arch.foldl applyRecord vs.entries) r.name =
          some (match lastPayload? arch r.name with
                | none => t
                | some d => { t with data := d }) := by
        rw [findVar_foldl_applyRecord, hf]
        rfl
      rw [recordOk, hf] at hold
      cases hpl : lastPayload? arch r.name with
      | none =>
        simp [recordOk, hnew, hpl]
        simpa using hold
      | some d =>
        simp [recordOk, hnew, hpl]
        simpa using hold
  simp [Load, hv2, foldl_applyRecord_idem]

/-- Concrete instantiation of Load_idempotent on a one-entry store and a
matching one-record archive. -/
theorem Load_idempotent_witness :
    validateArchive
        [("a", ({ id := 0, dtype := 0, shape := [3], data := [1, 1, 1] } : Tensor))]
        [{ name := "a", dtype := 0, shape := [3], payload := [9, 9, 9] }] = true ∧
    (∃ vs2,
      Load
        { device := 0,
          entries := [("a", { id := 0, dtype := 0, shape := [3], data := [1, 1, 1] })],
          nextId := 1 }
        [{ name := "a", dtype := 0, shape := [3], payload := [9, 9, 9] }] = Except.ok vs2 ∧
      Load vs2 [{ name := "a", dtype := 0, shape := [3], payload := [9, 9, 9] }] =
        Except.ok vs2) :=
  ⟨by decide, Load_idempotent _ _ (by decide)⟩

/-- An archive with no record of the given name has no last payload for it. -/
theorem lastPayload?_eq_none (arch : List Record) (n : String)
    (h : ∀ r ∈ arch, r.name ≠ n) : lastPayload? arch n = none := by
  induction arch with
  | nil => rfl
  | cons r rest ih =>
    have hr : r.name ≠ n := h r (List.mem_cons_self r rest)
    have hbeq : (r.name == n) = false := beq_eq_false_iff_ne.mpr hr
    simp [lastPayload?, ih fun x hx => h x (List.mem_cons_of_mem r hx), hbeq]

/-- In a registry with pairwise distinct names, lookup of a member entry's
name finds exactly that entry. -/
theorem findVar_of_mem_nodup (es : List (String × Tensor))
    (hnd : (es.map Prod.fst).Nodup) (e : String × Tensor) (he : e ∈ es) :
    findVar es e.1 = some e.2 := by
  induction es with
  | nil => cases he
  | cons a rest ih =>
    rw [List.map_cons, List.nodup_cons] at hnd
    rcases List.mem_cons.mp he with rfl | hmem
    · simp [findVar, List.find?, beq_self_eq_true]
    · have hne : a.1 ≠ e.1 := by
        intro hcon
        exact hnd.1 (hcon ▸ List.mem_map_of_mem Prod.fst hmem)
      have hbeq : (a.1 == e.1) = false := beq_eq_false_iff_ne.mpr hne
      simp only [findVar, List.find?, hbeq]
      exact ih hnd.2 hmem

/-- Serializing a registry with pairwise distinct names produces an archive
whose last payload for a name is exactly the contents stored under it. -/
theorem lastPayload?_records (es : List (String × Tensor))
    (hnd : (es.map Prod.fst).Nodup) (n : String) :
    lastPayload? (es.map recordOfEntry) n = (findVar es n).map Tensor.data := by
  induction es with
  | nil => simp [lastPayload?, findVar]
  | cons e rest ih =>
    rw [List.map_cons, List.nodup_cons] at hnd
    by_cases hname : e.1 = n
    · subst hname
      have hnone : lastPayload? (rest.map recordOfEntry) e.1 = none := by
        apply lastPayload?_eq_none
        intro r hr
        obtain ⟨x, hx, rfl⟩ := List.mem_map.mp hr
        intro hcon
        exact hnd.1 (hcon ▸ List.mem_map_of_mem Prod.fst hx)
      simp [lastPayload?, hnone, recordOfEntry, findVar, List.find?, beq_self_eq_true]
    · have hbeq : (e.1 == n) = false := beq_eq_false_iff_ne.mpr hname
      have lhs_eq : lastPayload? ((e :: rest).map recordOfEntry) n =
          lastPayload? (rest.map recordOfEntry) n := by
        cases hpl : lastPayload? (rest.map recordOfEntry) n <;>
          simp [lastPayload?, hpl, recordOfEntry, hbeq]
      have rhs_eq : findVar (e :: rest) n = findVar rest n := by
        simp [findVar, List.find?, hbeq]
      rw [lhs_eq, rhs_eq]
      exact ih hnd.2

/-- Two registries with the same names and shapes in the same positions agree
on the shape of every lookup. -/
theorem findVar_shape_congr (es1 es2 : List (String × Tensor))
    (h : es1.map (fun e => (e.1, e.2.shape)) = es2.map (fun e => (e.1, e.2.shape))) :
    ∀ n, (findVar es1 n).map Tensor.shape = (findVar es2 n).map Tensor.shape := by
  induction es1 generalizing es2 with
  | nil =>
    cases es2 with
    | nil => intro n; rfl
    | cons b rest2 => cases h
  | cons a rest1 ih =>
    cases es2 with
    | nil => cases h
    | cons b rest2 =>
      simp only [List.map_cons, List.cons.injEq, Prod.mk.injEq] at h
      obtain ⟨⟨hn, hs⟩, hrest⟩ := h
      intro n
      by_cases hb : a.1 = n
      · have hb2 : b.1 = n := hn ▸ hb
        have hbeq : (a.1 == n) = true := beq_iff_eq.mpr hb
        have hbeq2 : (b.1 == n) = true := beq_iff_eq.mpr hb2
        simp [findVar, List.find?, hbeq, hbeq2, hs]
      · have hb2 : ¬ b.1 = n := hn ▸ hb
        have hbeq : (a.1 == n) = false := beq_eq_false_iff_ne.mpr hb
        have hbeq2 : (b.1 == n) = false := beq_eq_false_iff_ne.mpr hb2
        simp only [findVar, List.find?, hbeq, hbeq2]
        exact ih rest2 hrest n

/-- C2: saving a store with pairwise distinct names and loading the archive
into a second store that declares the same names with the same shapes leaves
every entry of the second store with contents byte-identical to the entry of
the first store carrying the same name, matching by name and preserving the
second store's tensor identities. -/
theorem SaveLoad_roundtrip (vs1 vs2 : VarStore)
    (hnd : (vs1.entries.map Prod.fst).Nodup)
    (hmatch : ∀ n, (findVar vs1.entries n).map Tensor.shape =
      (findVar vs2.entries n).map Tensor.shape) :
    ∃ arch vs2', serializeEntries toHostBytes vs1.entries = Except.ok arch ∧
      Load vs2 arch = Except.ok vs2' ∧
      ∀ n t1, findVar vs1.entries n = some t1 →
        ∃ t2 t2', findVar vs2.entries n = some t2 ∧
          findVar vs2'.entries n = some t2' ∧
          t2'.data = t1.data ∧ t2'.id = t2.id ∧ t2'.shape = t2.shape := by
  have hv : validateArchive vs2.entries (vs1.entries.map recordOfEntry) = true := by
    rw [validateArchive, List.all_eq_true]
    intro r hr
    obtain ⟨e, he, rfl⟩ := List.mem_map.mp hr
    have h1 : findVar vs1.entries e.1 = some e.2 := findVar_of_mem_nodup _ hnd e he
    have h2 := hmatch e.1
    rw [h1] at h2
    cases hf2 : findVar vs2.entries e.1 with
    | none =>
      rw [hf2] at h2
      cases h2
    | some t2 =>
      rw [hf2] at h2
      simp only [Option.map_some', Option.some.injEq] at h2
      simp [recordOk, recordOfEntry, hf2, h2]
  refine ⟨vs1.entries.map recordOfEntry,
    { vs2 with entries := (vs1.entries.map recordOfEntry).foldl applyRecord vs2.entries },
    serializeEntries_toHostBytes vs1.entries, by simp [Load, hv], ?_⟩
  intro n t1 h1
  have h2 := hmatch n
  rw [h1] at h2
  cases hf2 : findVar vs2.entries n with
  | none =>
    rw [hf2] at h2
    cases h2
  | some t2 =>
    have hlp : lastPayload? (vs1.entries.map recordOfEntry) n = some t1.data := by
      rw [lastPayload?_records vs1.entries hnd n, h1]
      rfl
    refine ⟨t2, { t2 with data := t1.data }, rfl, ?_, rfl, rfl, rfl⟩
    rw [findVar_foldl_applyRecord, hf2]
    simp [hlp]

/-- Saved store of the round-trip scenario of TestSaveLoad: two entries, the
second externally mutated to all 42 before saving. -/
def vsSaveA : VarStore :=
  { device := 0,
    entries :=
      [("a.b.t2", { id := 0, dtype := 0, shape := [3], data := [2, 2, 2] }),
       ("t1", { id := 1, dtype := 0, shape := [4], data := [42, 42, 42, 42] })],
    nextId := 2 }

/-- Fresh store of the round-trip scenario: same names and shapes, untouched
initial contents and its own tensor identities. -/
def vsLoadB : VarStore :=
  { device := 0,
    entries :=
      [("a.b.t2", { id := 10, dtype := 0, shape := [3], data := [1, 1, 1] }),
       ("t1", { id := 11, dtype := 0, shape := [4], data := [0, 0, 0, 0] })],
    nextId := 12 }

/-- Concrete instantiation of SaveLoad_roundtrip, mirroring TestSaveLoad:
after the round trip both entries of the fresh store read the saved bytes,
matched by name. -/
theorem SaveLoad_roundtrip_witness :
    (vsSaveA.entries.map Prod.fst).Nodup ∧
    (∀ n, (findVar vsSaveA.entries n).map Tensor.shape =
      (findVar vsLoadB.entries n).map Tensor.shape) ∧
    (∃ arch vs2', serializeEntries toHostBytes vsSaveA.entries = Except.ok arch ∧
      Load vsLoadB arch = Except.ok vs2' ∧
      ∀ n t1, findVar vsSaveA.entries n = some t1 →
        ∃ t2 t2', findVar vsLoadB.entries n = some t2 ∧
          findVar vs2'.entries n = some t2' ∧
          t2'.data = t1.data ∧ t2'.id = t2.id ∧ t2'.shape = t2.shape) :=
  ⟨by decide, findVar_shape_congr _ _ (by decide),
   SaveLoad_roundtrip vsSaveA vsLoadB (by decide) (findVar_shape_congr _ _ (by decide))⟩

/-- One creation request against the store: the store after GetOrCreate, or
the unchanged store when the request fails. -/
def applyOp (vs : VarStore) (op : String × (Nat → TensorInit)) : VarStore :=
  match GetOrCreate vs op.1 op.2 with
  | Except.ok p => p.1
  | Except.error _ => vs

/-- The store obtained by running a sequence of creation requests against a
fresh store on the given device. -/
def buildStore (device : Nat) (ops : List (String × (Nat → TensorInit))) : VarStore :=
  ops.foldl applyOp (NewVarStore device)

/-- The order of first occurrences of a name sequence. -/
def firstInsertionOrder (ns : List String) : List String :=
  ns.foldl (fun acc n => if n ∈ acc then acc else acc ++ [n]) []

/-- Running creation requests with valid shapes keeps the device and grows
the registry name list by appending each name on its first occurrence. -/
theorem foldl_applyOp_spec (device : Nat) :
    ∀ (ops : List (String × (Nat → TensorInit))) (vs : VarStore),
      vs.device = device →
      (∀ op ∈ ops, ((op.2 device).shape.all fun d => 0 < d) = true) →
      (ops.foldl applyOp vs).device = device ∧
      (ops.foldl applyOp vs).entries.map Prod.fst =
        ops.foldl (fun acc op => if op.1 ∈ acc then acc else acc ++ [op.1])
          (vs.entries.map Prod.fst) := by
  intro ops
  induction ops with
  | nil =>
    intro vs hdev hval
    exact ⟨hdev, rfl⟩
  | cons op rest ih =>
    intro vs hdev hval
    simp only [List.foldl_cons]
    cases hf : findVar vs.entries op.1 with
    | some t =>
      have happ : applyOp vs op = vs := by simp [applyOp, GetOrCreate, hf]
      have hmem : op.1 ∈ vs.entries.map Prod.fst := by
        by_contra hcon
        have hnone := (findVar_eq_none_iff vs.entries op.1).mpr hcon
        rw [hf] at hnone
        exact Option.noConfusion hnone
      rw [happ, if_pos hmem]
      exact ih vs hdev fun o ho => hval o (List.mem_cons_of_mem op ho)
    | none =>
      have hvalop := hval op (List.mem_cons_self op rest)
      have happ : applyOp vs op =
          { vs with
            entries := vs.entries ++ [(op.1,
              { id := vs.nextId, dtype := (op.2 vs.device).dtype,
                shape := (op.2 vs.device).shape, data := (op.2 vs.device).data })],
            nextId := vs.nextId + 1 } := by
        simp [applyOp, GetOrCreate, hf, hdev, hvalop]
      have hmem : op.1 ∉ vs.entries.map Prod.fst := (findVar_eq_none_iff _ _).mp hf
      rw [happ, if_neg hmem]
      obtain ⟨hd, hn⟩ := ih
        { vs with
          entries := vs.entries ++ [(op.1,
            { id := vs.nextId, dtype := (op.2 vs.device).dtype,
              shape := (op.2 vs.device).shape, data := (op.2 vs.device).data })],
          nextId := vs.nextId + 1 }
        hdev (fun o ho => hval o (List.mem_cons_of_mem op ho))
      refine ⟨hd, ?_⟩
      rw [hn]
      congr 1
      simp

/-- C5: registry iteration order equals the order of first successful
insertion (stability across iterations holds since the registry is a pure
value), and serialization emits one record per entry with the names in
exactly that order. -/
theorem buildStore_insertion_order (device : Nat)
    (ops : List (String × (Nat → TensorInit)))
    (hval : ∀ op ∈ ops, ((op.2 device).shape.all fun d => 0 < d) = true) :
    (buildStore device ops).entries.map Prod.fst =
      firstInsertionOrder (ops.map Prod.fst) ∧
    ∃ recs, serializeEntries toHostBytes (buildStore device ops).entries =
        Except.ok recs ∧
      recs.map Record.name = (buildStore device ops).entries.map Prod.fst := by
  have h := foldl_applyOp_spec device ops (NewVarStore device) rfl hval
  constructor
  · rw [buildStore, h.2, firstInsertionOrder, List.foldl_map]
    rfl
  · refine ⟨_, serializeEntries_toHostBytes _, ?_⟩
    rw [List.map_map]
    exact List.map_congr_left fun e he => rfl

/-- Creation request sequence of the insertion-order scenario: b, a, b
again and c, all with valid shapes. -/
def opsW : List (String × (Nat → TensorInit)) :=
  [("b", fun _ => { dtype := 0, shape := [1], data := [0] }),
   ("a", fun _ => { dtype := 0, shape := [2], data := [0, 0] }),
   ("b", fun _ => { dtype := 0, shape := [7], data := [5] }),
   ("c", fun _ => { dtype := 0, shape := [1], data := [3] })]

/-- Concrete instantiation of buildStore_insertion_order: requests for b, a,
b again and c produce the registry order b, a, c, and the serialized record
names follow it. -/
theorem buildStore_insertion_order_witness :
    (buildStore 0 opsW).entries.map Prod.fst =
      firstInsertionOrder (opsW.map Prod.fst) ∧
    ∃ recs,
      serializeEntries toHostBytes (buildStore 0 opsW).entries = Except.ok recs ∧
      recs.map Record.name = (buildStore 0 opsW).entries.map Prod.fst :=
  buildStore_insertion_order 0 opsW (by
    intro op hop
    simp only [opsW, List.mem_cons, List.not_mem_nil, or_false] at hop
    rcases hop with rfl | rfl | rfl | rfl <;> rfl)

/-- C4: Save writes the archive to a temporary file and renames it into place
only on success: in every observable file-system state the target path holds
either its previous content or the complete archive, never a partial one;
on serialization failure Save reports the error and the file system is
untouched; on success the final state holds the whole archive at the target,
with every other path except the temporary one unchanged. -/
theorem Save_atomic (ext : Tensor → Option (List Nat)) (vs : VarStore) (fs : FS)
    (tmp target : String) (hne : tmp ≠ target) :
    (∀ s ∈ saveStates ext vs fs tmp target,
      s target = fs target ∨
      ∃ arch, serializeEntries ext vs.entries = Except.ok arch ∧ s target = some arch) ∧
    (∀ er, serializeEntries ext vs.entries = Except.error er →
      Save ext vs fs tmp target = Except.error er ∧
      saveStates ext vs fs tmp target = [fs]) ∧
    (∀ arch, serializeEntries ext vs.entries = Except.ok arch →
      ∃ fs2, Save ext vs fs tmp target = Except.ok fs2 ∧
        fs2 target = some arch ∧
        ∀ q, q ≠ target → q ≠ tmp → fs2 q = fs q) := by
  cases hser : serializeEntries ext vs.entries with
  | error er =>
    refine ⟨?_, ?_, ?_⟩
    · intro s hs
      simp only [saveStates, hser, List.mem_singleton] at hs
      subst hs
      exact Or.inl rfl
    · intro er2 h2
      cases h2
      exact ⟨by simp [Save, hser], by simp [saveStates, hser]⟩
    · intro arch h2
      cases h2
  | ok arch =>
    refine ⟨?_, ?_, ?_⟩
    · intro s hs
      simp only [saveStates, hser, List.mem_cons, List.mem_singleton,
        List.not_mem_nil, or_false] at hs
      rcases hs with rfl | rfl | rfl
      · exact Or.inl rfl
      · refine Or.inl ?_
        simp [fsWrite, Ne.symm hne]
      · refine Or.inr ⟨arch, rfl, ?_⟩
        simp [fsRename, fsWrite]
    · intro er2 h2
      cases h2
    · intro arch2 h2
      cases h2
      refine ⟨fsRename (fsWrite fs tmp arch) tmp target, by simp [Save, hser], ?_, ?_⟩
      · simp [fsRename, fsWrite]
      · intro q hq1 hq2
        simp [fsRename, fsWrite, hq1, hq2]

/-- Concrete instantiation of Save_atomic on a one-entry store saved over an
empty file system with distinct temporary and target paths. -/
theorem Save_atomic_witness :
    ("tmpfile" ≠ "model.bin") ∧
    ((∀ s ∈ saveStates toHostBytes
        { device := 0,
          entries := [("a", { id := 0, dtype := 0, shape := [3], data := [1, 1, 1] })],
          nextId := 1 }
        (fun _ => none) "tmpfile" "model.bin",
      s "model.bin" = (fun _ => none : FS) "model.bin" ∨
      ∃ arch, serializeEntries toHostBytes
          [("a", ({ id := 0, dtype := 0, shape := [3], data := [1, 1, 1] } : Tensor))] =
          Except.ok arch ∧ s "model.bin" = some arch) ∧
    (∀ er, serializeEntries toHostBytes
        [("a", ({ id := 0, dtype := 0, shape := [3], data := [1, 1, 1] } : Tensor))] =
        Except.error er →
      Save toHostBytes
        { device := 0,
          entries := [("a", { id := 0, dtype := 0, shape := [3], data := [1, 1, 1] })],
          nextId := 1 }
        (fun _ => none) "tmpfile" "model.bin" = Except.error er ∧
      saveStates toHostBytes
        { device := 0,
          entries := [("a", { id := 0, dtype := 0, shape := [3], data := [1, 1, 1] })],
          nextId := 1 }
        (fun _ => none) "tmpfile" "model.bin" = [fun _ => none]) ∧
    (∀ arch, serializeEntries toHostBytes
        [("a", ({ id := 0, dtype := 0, shape := [3], data := [1, 1, 1] } : Tensor))] =
        Except.ok arch →
      ∃ fs2, Save toHostBytes
          { device := 0,
            entries := [("a", { id := 0, dtype := 0, shape := [3], data := [1, 1, 1] })],
            nextId := 1 }
          (fun _ => none) "tmpfile" "model.bin" = Except.ok fs2 ∧
        fs2 "model.bin" = some arch ∧
        ∀ q, q ≠ "model.bin" → q ≠ "tmpfile" → fs2 q = (fun _ => none : FS) q)) :=
  ⟨by decide,
   Save_atomic toHostBytes
     { device := 0,
       entries := [("a", { id := 0, dtype := 0, shape := [3], data := [1, 1, 1] })],
       nextId := 1 }
     (fun _ => none) "tmpfile" "model.bin" (by decide)⟩

/-- Modelled from the spec: the reserved separator of fully qualified names. -/
def SEP : Char := '.'

/-- Modelled from the spec: a Path is an immutable sequence of name segments
(the store reference is irrelevant to naming and omitted). -/
structure VsPath where
  segments : List String
deriving DecidableEq

/-- A segment is valid when it does not contain the separator. -/
def validSegment (s : String) : Bool := !(s.data.contains SEP)

/-- Modelled from the spec: Sub appends a validated segment and fails with
ValidationError when the name contains the separator. -/
def VsPath.Sub (p : VsPath) (name : String) : Except VsError VsPath :=
  if name.data.contains SEP then Except.error VsError.validation
  else Except.ok { segments := p.segments ++ [name] }

/-- Modelled from the spec: the fully qualified name joins the segments with
the separator. -/
def joinName (segs : List String) : String :=
  { data := [SEP].intercalate (segs.map String.data) }

/-- The fully qualified name of the variable called name under the path:
the path segments followed by the final name, joined. -/
def entryName (p : VsPath) (name : String) : String :=
  joinName (p.segments ++ [name])

/-- C6: Sub fails with ValidationError whenever the segment contains the
separator and then appends nothing, and joining validated segments is
injective: two distinct validated segment sequences (each ending in the
final variable name, so nonempty) never produce the same fully qualified
name. -/
theorem Sub_validation_join_injective :
    (∀ (p : VsPath) (name : String), name.data.contains SEP = true →
      VsPath.Sub p name = Except.error VsError.validation) ∧
    (∀ (segs1 segs2 : List String) (n1 n2 : String),
      (∀ s ∈ segs1 ++ [n1], validSegment s = true) →
      (∀ s ∈ segs2 ++ [n2], validSegment s = true) →
      entryName { segments := segs1 } n1 = entryName { segments := segs2 } n2 →
      segs1 = segs2 ∧ n1 = n2) := by
  constructor
  · intro p name h
    simp only [VsPath.Sub]
    rw [if_pos h]
  · intro segs1 segs2 n1 n2 h1 h2 heq
    have hinj : Function.Injective String.data := fun a b h => String.ext h
    have hd : [SEP].intercalate ((segs1 ++ [n1]).map String.data) =
        [SEP].intercalate ((segs2 ++ [n2]).map String.data) :=
      congrArg String.data heq
    have hx1 : ∀ l ∈ (segs1 ++ [n1]).map String.data, SEP ∉ l := by
      intro l hl hmem
      obtain ⟨s, hs, rfl⟩ := List.mem_map.mp hl
      have hv : s.data.contains SEP = false := by simpa [validSegment] using h1 s hs
      exact absurd hmem (by simpa using hv)
    have hx2 : ∀ l ∈ (segs2 ++ [n2]).map String.data, SEP ∉ l := by
      intro l hl hmem
      obtain ⟨s, hs, rfl⟩ := List.mem_map.mp hl
      have hv : s.data.contains SEP = false := by simpa [validSegment] using h2 s hs
      exact absurd hmem (by simpa using hv)
    have hsp1 := List.splitOn_intercalate _ SEP hx1 (by simp)
    have hsp2 := List.splitOn_intercalate _ SEP hx2 (by simp)
    have hls : (segs1 ++ [n1]).map String.data = (segs2 ++ [n2]).map String.data := by
      rw [← hsp1, ← hsp2, hd]
    have happ : segs1 ++ [n1] = segs2 ++ [n2] :=
      List.map_injective_iff.mpr hinj hls
    have hrev := congrArg List.reverse happ
    simp only [List.reverse_append, List.reverse_cons, List.reverse_nil,
      List.nil_append, List.singleton_append, List.cons_append] at hrev
    rw [List.cons.injEq] at hrev
    exact ⟨List.reverse_injective hrev.2, hrev.1⟩

/-- Concrete instantiation of Sub_validation_join_injective: a segment
holding a dot is rejected, and equal joined names over validated segments
force equal segment sequences. -/
theorem Sub_validation_join_injective_witness :
    ("b.c".data.contains SEP = true) ∧
    (VsPath.Sub { segments := ["a"] } "b.c" = Except.error VsError.validation) ∧
    (∀ s ∈ ["a"] ++ ["t1"], validSegment s = true) ∧
    (["a"] = ["a"] ∧ "t1" = "t1") :=
  ⟨by decide,
   (Sub_validation_join_injective.1 { segments := ["a"] } "b.c" (by decide)),
   by decide,
   (Sub_validation_join_injective.2 ["a"] ["a"] "t1" "t1" (by decide) (by decide) rfl)⟩
